import Mathlib

/-!
Verification of the bear-peek browser extension against its design
specification.  The JavaScript sources are shallowly embedded: strings are
modelled as `List Char`, DOM access is abstracted into explicit arguments
(the text a selector matched, the residual body text, the list of meta
tags), and the persistent key-value store is an association list.  Every
definition follows the corresponding source function; the doc comment of a
definition names the file and function it embeds.
-/

namespace BearPeek

deriving instance DecidableEq for Except

/-- Character class of the JavaScript regular-expression escape `\s`
(ECMA-262 WhiteSpace and LineTerminator code points), used by
`replace(/\s+/g, ' ')`, `split(/\s+/)` and `String.prototype.trim` in
`content.js` and in the injected extractor of the popup script. -/
def isJsWs (c : Char) : Bool :=
  c = ' ' || c = '\t' || c = '\n' || c = '\r' ||
  c.toNat = 0x0B || c.toNat = 0x0C || c.toNat = 0xA0 || c.toNat = 0x1680 ||
  (0x2000 ≤ c.toNat && c.toNat ≤ 0x200A) ||
  c.toNat = 0x2028 || c.toNat = 0x2029 || c.toNat = 0x202F ||
  c.toNat = 0x205F || c.toNat = 0x3000 || c.toNat = 0xFEFF

/-- Character class of the control characters stripped by
`content.js` `cleanText`: `[\x00-\x1F\x7F-\x9F]`. -/
def isCtrl (c : Char) : Bool :=
  c.toNat ≤ 0x1F || (0x7F ≤ c.toNat && c.toNat ≤ 0x9F)

/-- Character class of the JavaScript regular-expression escape `\w`
(`[A-Za-z0-9_]`), used by `extractKeyTopics` in `background.js`. -/
def isWordChar (c : Char) : Bool :=
  ('a' ≤ c && c ≤ 'z') || ('A' ≤ c && c ≤ 'Z') ||
  ('0' ≤ c && c ≤ '9') || c = '_'

/-- Sentence terminators of the regular expression `[.!?]+` used by
`generateBasicSummary` in `background.js`. -/
def isTerm (c : Char) : Bool :=
  c = '.' || c = '!' || c = '?'

/-- ASCII lower-casing, the effect of JavaScript `toLowerCase()` on the
ASCII inputs handled here (for characters outside `A`-`Z` both are the
identity on ASCII). -/
def jsToLower (c : Char) : Char := c.toLower

/-- State machine for `replace(/\s+/g, ' ')`: the flag records whether the
previous character belonged to a whitespace run (whose single replacement
space has already been emitted). -/
def collapseAux : Bool → List Char → List Char
  | _, [] => []
  | prevWs, c :: rest =>
      if isJsWs c then
        if prevWs then collapseAux true rest
        else ' ' :: collapseAux true rest
      else c :: collapseAux false rest

/-- Embeds the step `.replace(/\s+/g, ' ')`: every maximal run of `\s`
characters becomes a single space. -/
def collapseWs (l : List Char) : List Char := collapseAux false l

/-- State machine for JavaScript `split` on a one-character-class regex
such as `/\s+/` or `/[.!?]+/`: fragments between maximal runs of matching
characters, with an empty fragment before a leading run and after a
trailing run, exactly as `String.prototype.split` produces them. -/
def splitRunsAux (p : Char → Bool) : Bool → List Char → List Char → List (List Char)
  | _, cur, [] => [cur.reverse]
  | inRun, cur, c :: rest =>
      if p c then
        if inRun then splitRunsAux p true cur rest
        else cur.reverse :: splitRunsAux p true [] rest
      else splitRunsAux p false (c :: cur) rest

/-- JavaScript `split` on the regex matching one or more characters of the
class `p`. -/
def splitRuns (p : Char → Bool) (l : List Char) : List (List Char) :=
  splitRunsAux p false [] l

/-- Embeds JavaScript `String.prototype.trim`: removes `\s` characters
from both ends. -/
def trimWs (l : List Char) : List Char :=
  (((l.dropWhile isJsWs).reverse.dropWhile isJsWs).reverse)

/-- Embeds `generateBasicSummary` from `background.js` (lines 187-193):
split on `[.!?]+`, keep fragments whose trimmed length exceeds 20, join
the first `min 3 _` fragments with `". "`, trim, append a period. -/
def generateBasicSummary (content : List Char) : List Char :=
  let sentences := (splitRuns isTerm content).filter (fun s => 20 < (trimWs s).length)
  let summaryLength := min 3 sentences.length
  trimWs (List.intercalate ('.' :: ' ' :: []) (sentences.take summaryLength)) ++ ['.']

/-- Frequency-count accumulator of `extractKeyTopics`: the JavaScript
object `wordCount` keeps (non-numeric) keys in insertion order, so it is
an association list where a fresh word is appended and a seen word has its
count bumped in place. -/
def bumpCount (acc : List (List Char × Nat)) (w : List Char) : List (List Char × Nat) :=
  if acc.any (fun p => p.1 = w) then
    acc.map (fun p => if p.1 = w then (p.1, p.2 + 1) else p)
  else acc ++ [(w, 1)]

/-- Embeds `extractKeyTopics` from `background.js` (lines 198-215):
lower-case, delete characters that are neither `\w` nor `\s`, split on
`\s+`, keep words of length greater than 4, count occurrences, stable-sort
by count descending (`Array.prototype.sort` is stable, so the stable
insertion sort with the same comparison yields the identical output),
take 5, project the words. -/
def extractKeyTopics (content : List Char) : List (List Char) :=
  let words := (splitRuns isJsWs
      ((content.map jsToLower).filter (fun c => isWordChar c || isJsWs c))).filter
      (fun w => 4 < w.length)
  let counts := words.foldl bumpCount []
  ((counts.insertionSort (fun x y => y.2 ≤ x.2)).take 5).map (fun p => p.1)

/-- The input string of the key-topics scenario in the specification. -/
def topicsInput : List Char :=
  ("the quick brown fox jumps over the lazy dog the fox runs").toList

/-- C1 counterexample: on the scenario input the key-topics computation
does not return "fox" first; "fox" (length 3) is removed by the
`length > 4` filter and does not appear in the result at all, whose first
element is "quick". -/
theorem extractKeyTopics_top1_not_fox :
    (extractKeyTopics topicsInput).head? = some ("quick").toList ∧
    ("fox").toList ∉ extractKeyTopics topicsInput := by
  decide

/-- C1 (amended): on the scenario input the tokens surviving the
`length > 4` filter are "quick", "brown", "jumps", each of frequency 1, so
the frequency sort with first-occurrence tie-breaking returns exactly
["quick", "brown", "jumps"]; in particular the top-1 topic is "quick",
not "fox", which the length filter excludes. -/
theorem extractKeyTopics_scenario :
    extractKeyTopics topicsInput =
      [("quick").toList, ("brown").toList, ("jumps").toList] := by
  decide

/-- C7 counterexample: an input of two sentences of exactly 20 characters
and one of 10 characters.  The claim says fragments of fewer than 20
trimmed characters are discarded, hence these two sentences qualify; the
code keeps only fragments of strictly more than 20 trimmed characters, so
all are discarded and the summary degenerates to ".". -/
theorem generateBasicSummary_twenty_char_sentences :
    generateBasicSummary
      (List.replicate 20 'a' ++ ['.'] ++ List.replicate 20 'b' ++ ['.'] ++
        List.replicate 10 'c' ++ ['.']) = ['.'] := by
  decide

/-- C7 (amended): the summarizer discards every fragment with 20 or fewer
trimmed characters (the qualifying bound is strictly more than 20, not
"fewer than 20 discarded"); for an input of two sentences of 21 characters
and one of 10 characters, the summary is exactly the two qualifying
sentences joined with ". " and terminated with a period. -/
theorem generateBasicSummary_scenario :
    generateBasicSummary
      (List.replicate 21 'a' ++ ['.'] ++ List.replicate 21 'b' ++ ['.'] ++
        List.replicate 10 'c' ++ ['.']) =
      List.replicate 21 'a' ++ ('.' :: ' ' :: []) ++ List.replicate 21 'b' ++ ['.'] := by
  decide

/-! The bounded result store.  `chrome.storage.local` is modelled as an
association list of key (a `List Char`) and stored record; of a stored
record only the `storedAt` timestamp matters to the eviction logic, so a
record is its `storedAt : Nat`.  JavaScript objects preserve insertion
order for non-numeric keys and `Object.keys` enumerates them in that
order, which the list order represents. -/

/-- Boolean prefix test on character lists, embedding
`String.prototype.startsWith`. -/
def hasPfx : List Char → List Char → Bool
  | [], _ => true
  | _ :: _, [] => false
  | p :: ps, c :: cs => p = c && hasPfx ps cs

/-- The key namespace of stored analysis results (`processed_` in
`background.js`). -/
def pfxProcessed : List Char := ("processed_").toList

/-- A storage state: keys with their `storedAt` timestamps, in insertion
order. -/
abbrev Storage := List (List Char × Nat)

/-- Embeds `chrome.storage.local.set({[key]: value})`: an existing key is
overwritten in place, a fresh key is appended. -/
def setKey (s : Storage) (k : List Char) (v : Nat) : Storage :=
  if s.any (fun p => p.1 = k) then
    s.map (fun p => if p.1 = k then (k, v) else p)
  else s ++ [(k, v)]

/-- Reads a key, embedding a `chrome.storage.local.get` of one key. -/
def getKey (s : Storage) (k : List Char) : Option Nat :=
  (s.find? (fun p => p.1 = k)).map (fun p => p.2)

/-- The entries of the `processed_` namespace, in storage order: the
intermediate value `Object.keys(allStorage).filter(key =>
key.startsWith('processed_'))` of `cleanupOldContent` (each key paired
with its record's `storedAt`). -/
def processedOf (s : Storage) : List (List Char × Nat) :=
  s.filter (fun p => hasPfx pfxProcessed p.1)

/-- The `processed_` entries sorted by `storedAt` descending, the
intermediate value `processedKeys` of `cleanupOldContent`
(`Array.prototype.sort` with comparator `timeB - timeA` is a stable
descending sort, realised here by the stable `insertionSort` with the
same ordering). -/
def sortedOf (s : Storage) : List (List Char × Nat) :=
  (processedOf s).insertionSort (fun a b => b.2 ≤ a.2)

/-- Embeds `cleanupOldContent` from `background.js` (lines 243-263): read
all keys, keep those starting with `processed_`, sort by `storedAt`
descending, and when more than 10 remain, remove every key beyond
position 10. -/
def cleanupOldContent (s : Storage) : Storage :=
  if 10 < (sortedOf s).length then
    s.filter (fun p => decide (p.1 ∉ ((sortedOf s).drop 10).map (fun p => p.1)))
  else s

/-- Embeds `storeProcessedContent` from `background.js` (lines 220-238):
write the result under the key `processed_` + process id with its
`storedAt` timestamp, then run `cleanupOldContent`. -/
def storeProcessedContent (s : Storage) (processId : List Char) (storedAt : Nat) : Storage :=
  cleanupOldContent (setKey s (pfxProcessed ++ processId) storedAt)

/-- Number of stored keys in the `processed_` namespace. -/
def processedCount (s : Storage) : Nat :=
  (processedOf s).length

/-- A key that extends the `processed_` namespace prefix carries that
prefix. -/
theorem hasPfx_append_self (p rest : List Char) : hasPfx p (p ++ rest) = true := by
  induction p with
  | nil => rfl
  | cons c cs ih => simp [hasPfx, ih]

/-- Writing one key does not change the reading of a different key. -/
theorem getKey_setKey_ne (s : Storage) (k kw : List Char) (v : Nat) (hne : k ≠ kw) :
    getKey (setKey s kw v) k = getKey s k := by
  have hkwk : ¬ ((kw, v) : List Char × Nat).1 = k := fun h => hne h.symm
  have hfind : ∀ rest : List (List Char × Nat),
      List.find? (fun p => decide (p.1 = k))
          (rest.map (fun p => if p.1 = kw then (kw, v) else p))
        = List.find? (fun p => decide (p.1 = k)) rest := by
    intro rest
    induction rest with
    | nil => rfl
    | cons a tl ih =>
        rw [List.map_cons]
        by_cases ha : a.1 = kw
        · have h2 : ¬ a.1 = k := by rw [ha]; exact fun h => hne h.symm
          rw [if_pos ha]
          simp only [List.find?_cons, decide_eq_false hkwk, decide_eq_false h2]
          exact ih
        · rw [if_neg ha]
          by_cases hk : a.1 = k
          · simp [List.find?_cons, hk]
          · simp only [List.find?_cons, decide_eq_false hk]
            exact ih
  unfold setKey getKey
  split
  · rw [hfind]
  · rw [List.find?_append]
    have hnone : List.find? (fun p => decide (p.1 = k)) [(kw, v)] = none := by
      simp only [List.find?_cons, decide_eq_false hkwk, List.find?_nil]
    rw [hnone, Option.or_none]

/-- Filtering storage with a predicate that keeps every entry of a given
key does not change the reading of that key. -/
theorem getKey_filter (s : Storage) (k : List Char) (q : List Char × Nat → Bool)
    (hq : ∀ p : List Char × Nat, p.1 = k → q p = true) :
    getKey (s.filter q) k = getKey s k := by
  unfold getKey
  induction s with
  | nil => rfl
  | cons a rest ih =>
      by_cases hk : a.1 = k
      · have hqk : q a = true := hq a hk
        rw [List.filter_cons_of_pos hqk]
        simp [List.find?_cons, hk]
      · by_cases hqa : q a = true
        · rw [List.filter_cons_of_pos hqa]
          simp only [List.find?_cons, decide_eq_false hk]
          exact ih
        · rw [List.filter_cons_of_neg hqa]
          rw [ih]
          simp only [List.find?_cons, decide_eq_false hk]

/-- C9: a `storeProcessedContent` cycle (write under `processed_` + id,
then `cleanupOldContent`) never touches a key outside the `processed_`
namespace: for every prior storage state, reading any key that does not
carry the `processed_` prefix is unchanged. -/
theorem storeProcessedContent_frame (s : Storage) (processId : List Char) (t : Nat)
    (k : List Char) (hk : hasPfx pfxProcessed k = false) :
    getKey (storeProcessedContent s processId t) k = getKey s k := by
  unfold storeProcessedContent
  have hne : k ≠ pfxProcessed ++ processId := by
    intro h
    rw [h, hasPfx_append_self] at hk
    exact absurd hk (by decide)
  rw [← getKey_setKey_ne s k (pfxProcessed ++ processId) t hne]
  set s' := setKey s (pfxProcessed ++ processId) t with hs'
  unfold cleanupOldContent
  split
  · apply getKey_filter
    intro p hp
    simp only [decide_eq_true_eq]
    intro hmem
    obtain ⟨e, he, hek⟩ := List.exists_of_mem_map hmem
    have hes : e ∈ sortedOf s' := List.mem_of_mem_drop he
    have hep : e ∈ processedOf s' :=
      ((List.perm_insertionSort (fun a b : List Char × Nat => b.2 ≤ a.2)
        (processedOf s')).mem_iff).1 hes
    have hpfx := (List.mem_filter.1 hep).2
    rw [hek, hp] at hpfx
    rw [hpfx] at hk
    exact absurd hk (by decide)
  · rfl

/-- A concrete storage state used to witness the frame theorem: one
settings-like key and one processed entry. -/
def frameStore : Storage :=
  [(("language").toList, 5), (pfxProcessed ++ ['a'], 1)]

/-- C9 witness: for the concrete store, the settings key `language` (which
does not carry the `processed_` prefix) reads the same value after a
store-plus-cleanup cycle. -/
theorem storeProcessedContent_frame_witness :
    hasPfx pfxProcessed (("language").toList) = false ∧
    getKey (storeProcessedContent frameStore (['z']) 99) (("language").toList) =
      getKey frameStore (("language").toList) :=
  ⟨by decide, storeProcessedContent_frame frameStore (['z']) 99 _ (by decide)⟩

/-- After `cleanupOldContent` completes, at most 10 keys of the
`processed_` namespace remain. -/
theorem processedCount_cleanup_le (s : Storage) :
    processedCount (cleanupOldContent s) ≤ 10 := by
  have hperm : (sortedOf s).Perm (processedOf s) :=
    List.perm_insertionSort _ (processedOf s)
  unfold cleanupOldContent
  split
  · set q : List Char × Nat → Bool :=
      fun p => decide (p.1 ∉ ((sortedOf s).drop 10).map (fun p => p.1)) with hq
    show ((s.filter q).filter (fun p => hasPfx pfxProcessed p.1)).length ≤ 10
    rw [List.filter_filter]
    have hcomm : ∀ a ∈ s,
        ((fun p => hasPfx pfxProcessed p.1) a && q a) =
        (q a && (fun p => hasPfx pfxProcessed p.1) a) := by
      intro a _; exact Bool.and_comm _ _
    rw [List.filter_congr hcomm, ← List.filter_filter]
    have hlen : ((processedOf s).filter q).length = ((sortedOf s).filter q).length :=
      (List.Perm.filter q hperm.symm).length_eq
    show ((processedOf s).filter q).length ≤ 10
    rw [hlen]
    calc ((sortedOf s).filter q).length
        = (((sortedOf s).take 10 ++ (sortedOf s).drop 10).filter q).length := by
          rw [List.take_append_drop]
      _ = (((sortedOf s).take 10).filter q).length +
            (((sortedOf s).drop 10).filter q).length := by
          rw [List.filter_append, List.length_append]
      _ ≤ 10 := by
          have hnil : ((sortedOf s).drop 10).filter q = [] := by
            rw [List.filter_eq_nil_iff]
            intro e he
            simp only [hq, decide_eq_true_eq, Decidable.not_not]
            exact List.mem_map_of_mem _ he
          rw [hnil]
          simp only [List.length_nil, Nat.add_zero]
          calc (((sortedOf s).take 10).filter q).length
              ≤ ((sortedOf s).take 10).length := List.length_filter_le _ _
            _ ≤ 10 := by rw [List.length_take]; exact Nat.min_le_left _ _
  · have hle : ¬ 10 < (sortedOf s).length := by assumption
    show processedCount s ≤ 10
    unfold processedCount
    rw [← hperm.length_eq]
    exact Nat.le_of_not_lt hle

/-- The 15-entry scenario store: 15 `processed_` keys with pairwise
distinct `storedAt` timestamps 1..15 in scrambled insertion order. -/
def store15 : Storage :=
  [(pfxProcessed ++ ['a'], 3), (pfxProcessed ++ ['b'], 14), (pfxProcessed ++ ['c'], 7),
   (pfxProcessed ++ ['d'], 1), (pfxProcessed ++ ['e'], 12), (pfxProcessed ++ ['f'], 9),
   (pfxProcessed ++ ['g'], 15), (pfxProcessed ++ ['h'], 4), (pfxProcessed ++ ['i'], 11),
   (pfxProcessed ++ ['j'], 6), (pfxProcessed ++ ['k'], 13), (pfxProcessed ++ ['l'], 2),
   (pfxProcessed ++ ['m'], 10), (pfxProcessed ++ ['n'], 8), (pfxProcessed ++ ['o'], 5)]

/-- C6: running eviction on 15 stored entries with distinct `storedAt`
values keeps exactly the 10 entries with the most recent timestamps
(those with `storedAt` 6..15, in their original storage order) and
removes the other 5; and in general, after any put followed by a completed
cleanup, at most 10 (the capacity) `processed_` entries remain in the
store. -/
theorem cleanupOldContent_scenario_and_bound :
    cleanupOldContent store15 =
      [(pfxProcessed ++ ['b'], 14), (pfxProcessed ++ ['c'], 7),
       (pfxProcessed ++ ['e'], 12), (pfxProcessed ++ ['f'], 9),
       (pfxProcessed ++ ['g'], 15), (pfxProcessed ++ ['i'], 11),
       (pfxProcessed ++ ['j'], 6), (pfxProcessed ++ ['k'], 13),
       (pfxProcessed ++ ['m'], 10), (pfxProcessed ++ ['n'], 8)] ∧
    ∀ (s : Storage) (processId : List Char) (t : Nat),
      processedCount (storeProcessedContent s processId t) ≤ 10 :=
  ⟨by decide, fun s processId t => processedCount_cleanup_le _⟩

/-! Metadata assembly.  A `<meta>` tag is modelled by the pair of the value
of `getAttribute('name') || getAttribute('property')` and the value of
`getAttribute('content')`; in JavaScript a missing attribute (null) and an
empty string are both falsy, so an absent attribute is modelled by the
empty list. -/

/-- The metadata fields recognised by the meta-tag switch of
`extractMetadata` in `content.js`. -/
inductive MField
  | description | keywords | author | publishDate | ogTitle | ogDescription | ogImage
  deriving DecidableEq

/-- The fields of the metadata record filled from meta tags by
`extractMetadata` in `content.js`; every field starts as the empty
string. -/
structure PageMeta where
  description : List Char := []
  keywords : List Char := []
  author : List Char := []
  publishDate : List Char := []
  ogTitle : List Char := []
  ogDescription : List Char := []
  ogImage : List Char := []
  deriving DecidableEq

/-- Reads one field of the record. -/
def getF (m : PageMeta) : MField → List Char
  | .description => m.description
  | .keywords => m.keywords
  | .author => m.author
  | .publishDate => m.publishDate
  | .ogTitle => m.ogTitle
  | .ogDescription => m.ogDescription
  | .ogImage => m.ogImage

/-- Overwrites one field of the record. -/
def setF (m : PageMeta) : MField → List Char → PageMeta
  | .description, v => { m with description := v }
  | .keywords, v => { m with keywords := v }
  | .author, v => { m with author := v }
  | .publishDate, v => { m with publishDate := v }
  | .ogTitle, v => { m with ogTitle := v }
  | .ogDescription, v => { m with ogDescription := v }
  | .ogImage, v => { m with ogImage := v }

/-- The `switch (name.toLowerCase())` of `extractMetadata`: which field a
lower-cased attribute name selects (`article:published_time` and `pubdate`
both select the publish date). -/
def fieldFor (n : List Char) : Option MField :=
  if n = ("description").toList then some .description
  else if n = ("keywords").toList then some .keywords
  else if n = ("author").toList then some .author
  else if n = ("article:published_time").toList then some .publishDate
  else if n = ("pubdate").toList then some .publishDate
  else if n = ("og:title").toList then some .ogTitle
  else if n = ("og:description").toList then some .ogDescription
  else if n = ("og:image").toList then some .ogImage
  else none

/-- One iteration of the `metaTags.forEach` loop of `extractMetadata`:
skip the tag when name or content is falsy, otherwise overwrite the field
selected by the lower-cased name. -/
def metaStep (m : PageMeta) (tag : List Char × List Char) : PageMeta :=
  if tag.1 = [] || tag.2 = [] then m
  else
    match fieldFor (tag.1.map jsToLower) with
    | some f => setF m f tag.2
    | none => m

/-- Embeds the meta-tag scan of `extractMetadata` from `content.js`
(lines 272-303): fold the per-tag switch over all meta tags in document
order, starting from the record of empty fields. -/
def extractMetadata (tags : List (List Char × List Char)) : PageMeta :=
  tags.foldl metaStep {}

/-- The content a tag contributes to a field: its content when the tag is
non-falsy and its lower-cased name selects that field. -/
def matchVal (f : MField) (tag : List Char × List Char) : Option (List Char) :=
  if tag.1 = [] || tag.2 = [] then none
  else if fieldFor (tag.1.map jsToLower) = some f then some tag.2
  else none

/-- C2 counterexample: two non-empty `description` meta tags with contents
"a" then "b".  The claim records the FIRST non-empty match, "a"; the code
overwrites on every match and ends with "b". -/
theorem extractMetadata_first_seen_fails :
    (extractMetadata
      [(("description").toList, ['a']), (("description").toList, ['b'])]).description
      = ['b'] ∧ ¬ (['b'] : List Char) = ['a'] := by
  decide

/-- Reading a field after writing it yields the written value; writing a
different field leaves it unchanged. -/
theorem getF_setF (m : PageMeta) (f g : MField) (v : List Char) :
    getF (setF m f v) g = if f = g then v else getF m g := by
  cases f <;> cases g <;> simp [getF, setF]

/-- C2 (amended): the meta-tag scan records, for each known field, the
content of the LAST non-empty matching meta tag (each matching non-empty
tag overwrites the field, so later duplicates win); a field with no
non-empty match stays the empty string. -/
theorem extractMetadata_last_seen_wins (tags : List (List Char × List Char)) (f : MField) :
    getF (extractMetadata tags) f = ((tags.filterMap (matchVal f)).getLast?).getD [] := by
  suffices h : ∀ (m : PageMeta),
      getF (tags.foldl metaStep m) f = ((tags.filterMap (matchVal f)).getLast?).getD (getF m f) by
    have h0 : getF ({} : PageMeta) f = [] := by cases f <;> rfl
    have := h {}
    rw [h0] at this
    exact this
  induction tags with
  | nil => intro m; rfl
  | cons t ts ih =>
      intro m
      rw [List.foldl_cons, List.filterMap_cons, ih (metaStep m t)]
      by_cases h1 : t.1 = [] || t.2 = []
      · have hm : metaStep m t = m := by unfold metaStep; rw [if_pos h1]
        have hv : matchVal f t = none := by unfold matchVal; rw [if_pos h1]
        rw [hm, hv]
      · cases hf : fieldFor (t.1.map jsToLower) with
        | none =>
            have hm : metaStep m t = m := by unfold metaStep; rw [if_neg h1, hf]
            have hv : matchVal f t = none := by
              unfold matchVal; rw [if_neg h1, hf]
              simp
            rw [hm, hv]
        | some g =>
            have hm : metaStep m t = setF m g t.2 := by unfold metaStep; rw [if_neg h1, hf]
            by_cases hg : g = f
            · have hv : matchVal f t = some t.2 := by
                unfold matchVal; rw [if_neg h1, hf, if_pos (by rw [hg])]
              rw [hm, hv, hg, getF_setF]
              simp only [if_pos rfl]
              cases hl : (ts.filterMap (matchVal f)).getLast? with
              | none => simp [List.getLast?_cons, hl]
              | some w => simp [List.getLast?_cons, hl]
            · have hv : matchVal f t = none := by
                unfold matchVal
                rw [if_neg h1, hf, if_neg (fun h => hg (Option.some.inj h))]
              rw [hm, hv, getF_setF, if_neg hg]

/-! Content cleaning and the extraction entry points.  The DOM strategy
selection of `extractMainContent` (semantic selectors, body sweep, largest
text block) needs a live document; its result, the raw selected text, is
abstracted into the `content` argument, and the normalization and
truncation that `extractMainContent` applies to it (lines 196-201 of
`content.js`) are embedded exactly. -/

/-- Groups a character list into maximal runs of characters with the same
`f`-class (adjacent characters belong to one run iff `f` agrees on
them). -/
def groupRuns (f : Char → Bool) : List Char → List (List Char)
  | [] => []
  | c :: rest =>
      match groupRuns f rest with
      | [] => [[c]]
      | [] :: rs => [c] :: rs
      | (d :: r) :: rs =>
          if f c = f d then (c :: d :: r) :: rs else [c] :: (d :: r) :: rs

/-- Rewrites one run for the global replace of `/\n\s*\n\s*\n/` by
`"\n\n"` in `content.js` `cleanText`.  A match of that pattern is a
whitespace substring that starts and ends with a newline and contains at
least three newlines; with greedy matching the match inside a whitespace
run stretches from the run's first newline to its last, so a whitespace
run containing at least three newlines has that stretch replaced by two
newlines, and every other run is unchanged. -/
def fixRun (r : List Char) : List Char :=
  match r.head? with
  | none => r
  | some c =>
      if isJsWs c && 3 ≤ r.count '\n' then
        r.takeWhile (fun c => !(c = '\n')) ++ ('\n' :: '\n' :: []) ++
          (r.reverse.takeWhile (fun c => !(c = '\n'))).reverse
      else r

/-- Embeds the step `.replace(/\n\s*\n\s*\n/g, '\n\n')` of `content.js`
`cleanText`: matches never span a non-whitespace character, so the global
replace rewrites each whitespace run independently. -/
def replTripleNl (l : List Char) : List Char :=
  ((groupRuns isJsWs l).map fixRun).flatten

/-- Embeds the step `.replace(/\t/g, ' ')` of `content.js` `cleanText`. -/
def mapTab (l : List Char) : List Char :=
  l.map (fun c => if c = '\t' then ' ' else c)

/-- Embeds `cleanText` from `content.js` (lines 335-349): collapse `\s+`
runs to one space, rewrite triple newlines, map tabs to spaces, strip the
control characters `[\x00-\x1F\x7F-\x9F]`, trim. -/
def cleanTextC (l : List Char) : List Char :=
  trimWs ((mapTab (replTripleNl (collapseWs l))).filter (fun c => !isCtrl c))

/-- The `config.maxContentLength` of `content.js`. -/
def maxContentLength : Nat := 10000

/-- The `config.minContentLength` of `content.js`. -/
def minContentLength : Nat := 100

/-- Embeds the final normalization of `extractMainContent` from
`content.js` (lines 196-201): clean the strategy-selected text and, when
it exceeds `maxContentLength`, cut it there and append `"..."`. -/
def extractMainContent (content : List Char) : List Char :=
  if maxContentLength < (cleanTextC content).length then
    (cleanTextC content).take maxContentLength ++ ("...").toList
  else cleanTextC content

/-- Embeds `cleanText` of the injected extractor (popup script, both in
`popup.js` lines 137-143 and in the injected `extractPageContent` of the
unnamed popup source, lines 155-163): collapse `\s+` runs to one space,
map the already-removed `[\r\n\t]` to spaces, trim, cut at 5000. -/
def cleanTextInj (l : List Char) : List Char :=
  (trimWs ((collapseWs l).map
    (fun c => if c = '\r' || c = '\n' || c = '\t' then ' ' else c))).take 5000

/-- Embeds `extractContent` of the injected extractor (unnamed popup
source, lines 168-232): try each selector's matched text in order and
return the cleaned text of the first whose raw length exceeds 100;
otherwise fall back to the cleaned residual body text with no length
threshold.  `selTexts` holds, per selector, the `innerText` of the matched
element (`none` when no element matched or its text was falsy), and
`bodyResidual` the body clone's text after noise-selector removal. -/
def extractPageContentInj (selTexts : List (Option (List Char)))
    (bodyResidual : List Char) : List Char :=
  match selTexts.findSome? (fun o =>
      match o with
      | some t => if 100 < t.length then some (cleanTextInj t) else none
      | none => none) with
  | some r => r
  | none => cleanTextInj bodyResidual

/-- Embeds `extractContent` from `content.js` (lines 115-154) together
with its `state.isExtractingContent` flag: a busy call throws before the
try block (flag left `true`); otherwise the main content is extracted and
validated against `minContentLength`, and the `finally` clause resets the
flag to `false` on both the success and the throw path. -/
def extractContent (busy : Bool) (raw : List Char) :
    Except String (List Char) × Bool :=
  if busy then (Except.error "Content extraction already in progress", true)
  else
    if (extractMainContent raw).length < minContentLength then
      (Except.error "Insufficient content extracted", false)
    else (Except.ok (extractMainContent raw), false)

/-- A whitespace-free, control-free character list passes `collapseAux`
unchanged. -/
theorem collapseAux_of_not_ws (b : Bool) (l : List Char)
    (h : ∀ c ∈ l, isJsWs c = false) : collapseAux b l = l := by
  induction l generalizing b with
  | nil => rfl
  | cons c rest ih =>
      unfold collapseAux
      rw [if_neg (by rw [h c (List.mem_cons_self c rest)]; exact Bool.false_ne_true)]
      rw [ih false (fun d hd => h d (List.mem_cons_of_mem c hd))]

/-- Flattening the runs recovers the original list. -/
theorem flatten_groupRuns (f : Char → Bool) (l : List Char) :
    (groupRuns f l).flatten = l := by
  induction l with
  | nil => rfl
  | cons c rest ih =>
      cases hg : groupRuns f rest with
      | nil =>
          rw [hg] at ih
          simp only [List.flatten_nil] at ih
          simp [groupRuns, hg, ← ih]
      | cons r rs =>
          rw [hg] at ih
          cases r with
          | nil => simp only [groupRuns, hg]; simpa using ih
          | cons d r' =>
              by_cases hfd : f c = f d
              · simp only [groupRuns, hg, if_pos hfd]
                simpa using ih
              · simp only [groupRuns, hg, if_neg hfd]
                simpa using ih

/-- The triple-newline replace is the identity on newline-free text. -/
theorem replTripleNl_no_nl (l : List Char) (h : ∀ c ∈ l, ¬ c = '\n') :
    replTripleNl l = l := by
  unfold replTripleNl
  have hfix : ∀ r ∈ groupRuns isJsWs l, fixRun r = r := by
    intro r hr
    have hsub : ∀ c ∈ r, c ∈ l := by
      intro c hc
      rw [← flatten_groupRuns isJsWs l]
      exact List.mem_flatten.2 ⟨r, hr, hc⟩
    have hcount : r.count '\n' = 0 :=
      List.count_eq_zero.2 (fun hmem => h '\n' (hsub _ hmem) rfl)
    unfold fixRun
    cases hh : r.head? with
    | none => rfl
    | some c => simp [hcount]
  rw [List.map_congr_left hfix, List.map_id', flatten_groupRuns]

/-- Tab replacement is the identity on tab-free text. -/
theorem mapTab_no_tab (l : List Char) (h : ∀ c ∈ l, ¬ c = '\t') :
    mapTab l = l := by
  unfold mapTab
  rw [List.map_congr_left (fun c hc => if_neg (h c hc)), List.map_id']

/-- Trimming is the identity when neither end is whitespace. -/
theorem trimWs_of_ends (l : List Char)
    (h1 : ∀ c, l.head? = some c → isJsWs c = false)
    (h2 : ∀ c, l.getLast? = some c → isJsWs c = false) :
    trimWs l = l := by
  unfold trimWs
  have hdrop : ∀ (m : List Char), (∀ c, m.head? = some c → isJsWs c = false) →
      m.dropWhile isJsWs = m := by
    intro m hm
    cases m with
    | nil => rfl
    | cons c rest =>
        rw [List.dropWhile_cons, if_neg]
        rw [hm c rfl]
        exact Bool.false_ne_true
  rw [hdrop l h1, hdrop l.reverse (fun c hc => h2 c ((List.head?_reverse l) ▸ hc)),
    List.reverse_reverse]

/-- The `content.js` cleaning pass is the identity on a block of plain
letters. -/
theorem cleanTextC_replicate_a (n : Nat) :
    cleanTextC (List.replicate n 'a') = List.replicate n 'a' := by
  have hmem : ∀ c ∈ List.replicate n 'a', c = 'a' := fun c hc =>
    List.eq_of_mem_replicate hc
  unfold cleanTextC collapseWs
  rw [collapseAux_of_not_ws false _ (fun c hc => by rw [hmem c hc]; rfl)]
  rw [replTripleNl_no_nl _ (fun c hc => by rw [hmem c hc]; decide)]
  rw [mapTab_no_tab _ (fun c hc => by rw [hmem c hc]; decide)]
  rw [List.filter_eq_self.2 (fun c hc => by rw [hmem c hc]; rfl)]
  apply trimWs_of_ends
  · intro c hc
    rw [List.head?_replicate] at hc
    by_cases hn : n = 0
    · rw [if_pos hn] at hc; exact absurd hc (by simp)
    · rw [if_neg hn] at hc
      rw [← Option.some.inj hc]; rfl
  · intro c hc
    rw [List.getLast?_replicate] at hc
    by_cases hn : n = 0
    · rw [if_pos hn] at hc; exact absurd hc (by simp)
    · rw [if_neg hn] at hc
      rw [← Option.some.inj hc]; rfl

/-- C3 counterexample: a clean input of 10001 letters.  The cleaning pass
leaves it unchanged, it exceeds `maxContentLength = 10000`, and the
truncation appends `"..."` after the cut, so the returned content has
length 10003 — strictly more than the configured budget. -/
theorem extractMainContent_exceeds_budget :
    (extractMainContent (List.replicate 10001 'a')).length = maxContentLength + 3 ∧
    maxContentLength < maxContentLength + 3 := by
  constructor
  · unfold extractMainContent
    rw [cleanTextC_replicate_a, List.length_replicate]
    rw [if_pos (by decide)]
    rw [List.length_append, List.length_take, List.length_replicate]
    rfl
  · decide

/-- C3 (amended): the popup extractor's `cleanText` respects its 5000
budget exactly (hard cut), but `extractMainContent`'s truncation appends
`"..."` after the cut, so its guaranteed bound is `maxContentLength + 3`,
not `maxContentLength`. -/
theorem content_length_bounds (l : List Char) :
    (cleanTextInj l).length ≤ 5000 ∧
    (extractMainContent l).length ≤ maxContentLength + 3 := by
  constructor
  · unfold cleanTextInj
    rw [List.length_take]
    exact Nat.min_le_left _ _
  · unfold extractMainContent
    split
    · rw [List.length_append, List.length_take]
      have h1 : min maxContentLength (cleanTextC l).length ≤ maxContentLength :=
        Nat.min_le_left _ _
      have h2 : (("...").toList).length = 3 := rfl
      rw [h2]
      exact Nat.add_le_add_right h1 3
    · have hle : ¬ maxContentLength < (cleanTextC l).length := by assumption
      exact Nat.le_trans (Nat.le_of_not_lt hle) (Nat.le_add_right _ 3)

/-- C4 counterexample: on a page whose strategies yield no text, the
extraction entry point does not return a zero-length content as a valid
result — it throws `Insufficient content extracted` to its caller. -/
theorem extractContent_throws_on_empty :
    (extractContent false []).1 = Except.error "Insufficient content extracted" := by
  decide

/-- C4 (amended): `extractContent` does throw to its caller: a call during
an in-progress extraction throws `Content extraction already in progress`,
and a completed pass whose final content is shorter than
`minContentLength` throws `Insufficient content extracted` instead of
returning the short (possibly zero-length) content as a valid output
state. -/
theorem extractContent_error_semantics (raw : List Char) :
    (extractContent true raw).1 = Except.error "Content extraction already in progress" ∧
    ((extractMainContent raw).length < minContentLength →
      (extractContent false raw).1 = Except.error "Insufficient content extracted") := by
  constructor
  · rfl
  · intro h
    unfold extractContent
    rw [if_neg (by exact Bool.false_ne_true), if_pos h]

/-- C4 witness: the empty page is below the threshold, and both error
paths of the amended theorem fire on it. -/
theorem extractContent_error_semantics_witness :
    (extractContent true []).1 = Except.error "Content extraction already in progress" ∧
    (extractContent false []).1 = Except.error "Insufficient content extracted" :=
  ⟨(extractContent_error_semantics []).1,
    (extractContent_error_semantics []).2 (by decide)⟩

/-- C5 counterexample: a page with no selector match whose residual body
text is 50 plain characters.  The injected extractor's body fallback has
no minimum-length check, so the completed extraction returns a 50
character content — strictly between 0 and `minContentLength = 100`,
which the claimed invariant forbids. -/
theorem extractPageContentInj_intermediate_length :
    (extractPageContentInj (List.replicate 9 none) (List.replicate 50 'x')).length = 50 ∧
    0 < 50 ∧ 50 < minContentLength := by
  refine ⟨?_, by decide, by decide⟩
  decide

/-- C5 (amended): the 0-or-at-least-`minContentLength` invariant holds for
the content-script entry point `extractContent` (a successful result is
always at least `minContentLength` long, anything shorter throws), but not
for the injected popup extractor, whose body fallback can return any
intermediate length. -/
theorem extractContent_ok_min_length (busy : Bool) (raw : List Char)
    (c : List Char) (flag : Bool)
    (h : extractContent busy raw = (Except.ok c, flag)) :
    minContentLength ≤ c.length := by
  unfold extractContent at h
  by_cases hb : busy
  · rw [if_pos hb] at h
    exact absurd (congrArg Prod.fst h) (by simp)
  · rw [if_neg hb] at h
    by_cases hlen : (extractMainContent raw).length < minContentLength
    · rw [if_pos hlen] at h
      exact absurd (congrArg Prod.fst h) (by simp)
    · rw [if_neg hlen] at h
      have hc : Except.ok (extractMainContent raw) = Except.ok c :=
        congrArg Prod.fst h
      rw [← Except.ok.inj hc]
      exact Nat.le_of_not_lt hlen

set_option maxRecDepth 40000 in
/-- C5 witness: a 150-letter page is accepted and its accepted content is
at least `minContentLength` long. -/
theorem extractContent_ok_min_length_witness :
    minContentLength ≤ (List.replicate 150 'a').length :=
  extractContent_ok_min_length false (List.replicate 150 'a')
    (List.replicate 150 'a') false
    (by
      unfold extractContent extractMainContent
      rw [cleanTextC_replicate_a, List.length_replicate]
      rfl)

/-- C10: a call made while an extraction is in progress throws
`Content extraction already in progress` and leaves the in-progress flag
set (the throw happens before the try/finally); any call that enters the
try block resets the flag to `false` on completion, whether it succeeded
or threw, so a later call is never permanently blocked. -/
theorem extractContent_busy_and_reset (raw : List Char) :
    extractContent true raw =
      (Except.error "Content extraction already in progress", true) ∧
    (extractContent false raw).2 = false := by
  constructor
  · rfl
  · unfold extractContent
    rw [if_neg (by exact Bool.false_ne_true)]
    split <;> rfl

/-! Idempotence analysis of the popup normalization pass. -/

/-- Dropping a leading-whitespace run is the identity when the head is not
whitespace. -/
theorem dropWhile_head_not_ws (m : List Char)
    (hm : ∀ c, m.head? = some c → isJsWs c = false) :
    m.dropWhile isJsWs = m := by
  cases m with
  | nil => rfl
  | cons c rest =>
      rw [List.dropWhile_cons, if_neg]
      rw [hm c rfl]
      exact Bool.false_ne_true

/-- Collapsing distributes over an append whose left part is free of
whitespace. -/
theorem collapseAux_append_not_ws (l1 l2 : List Char)
    (h : ∀ c ∈ l1, isJsWs c = false) :
    collapseAux false (l1 ++ l2) = l1 ++ collapseAux false l2 := by
  induction l1 with
  | nil => rfl
  | cons c r ih =>
      rw [List.cons_append]
      simp only [collapseAux]
      rw [if_neg (by rw [h c (List.mem_cons_self c r)]; exact Bool.false_ne_true)]
      rw [ih (fun d hd => h d (List.mem_cons_of_mem c hd))]
      rfl

/-- First intermediate value of the C8 counterexample: cleaning 4999
letters, a space and a final letter cuts the run at 5000 characters,
leaving a trailing space. -/
theorem cleanTextInj_cut_at_space :
    cleanTextInj (List.replicate 4999 'a' ++ [' ', 'b']) =
      List.replicate 4999 'a' ++ [' '] := by
  unfold cleanTextInj collapseWs
  rw [collapseAux_append_not_ws _ _
    (fun c hc => by rw [List.eq_of_mem_replicate hc]; rfl)]
  rw [show collapseAux false ([' ', 'b']) = [' ', 'b'] from by decide]
  rw [List.map_append, List.map_replicate]
  rw [show (if ('a' = '\r' || 'a' = '\n' || 'a' = '\t' : Bool) then ' ' else 'a') = 'a'
    from rfl]
  rw [show List.map (fun c => if c = '\r' || c = '\n' || c = '\t' then ' ' else c)
      ([' ', 'b']) = [' ', 'b'] from by decide]
  have hh : (List.replicate 4999 'a' ++ [' ', 'b']).head? = some 'a' := by
    rw [List.head?_append, List.head?_replicate]
    rfl
  have hl : (List.replicate 4999 'a' ++ [' ', 'b']).getLast? = some 'b' := by
    rw [List.getLast?_append]
    rfl
  rw [trimWs_of_ends _
    (fun c hc => by rw [hh] at hc; rw [← Option.some.inj hc]; rfl)
    (fun c hc => by rw [hl] at hc; rw [← Option.some.inj hc]; rfl)]
  rw [List.take_append_eq_append_take,
    List.take_of_length_le (by rw [List.length_replicate]; exact Nat.le_of_lt (by decide)),
    List.length_replicate]
  rfl

/-- Second intermediate value of the C8 counterexample: cleaning the cut
result trims the trailing space away, shortening the string again. -/
theorem cleanTextInj_trims_trailing_space :
    cleanTextInj (List.replicate 4999 'a' ++ [' ']) = List.replicate 4999 'a' := by
  unfold cleanTextInj collapseWs
  rw [collapseAux_append_not_ws _ _
    (fun c hc => by rw [List.eq_of_mem_replicate hc]; rfl)]
  rw [show collapseAux false ([' ']) = [' '] from by decide]
  rw [List.map_append, List.map_replicate]
  rw [show (if ('a' = '\r' || 'a' = '\n' || 'a' = '\t' : Bool) then ' ' else 'a') = 'a'
    from rfl]
  rw [show List.map (fun c => if c = '\r' || c = '\n' || c = '\t' then ' ' else c)
      ([' ']) = [' '] from by decide]
  have hh : (List.replicate 4999 'a' ++ [' ']).head? = some 'a' := by
    rw [List.head?_append, List.head?_replicate]
    rfl
  unfold trimWs
  rw [dropWhile_head_not_ws (List.replicate 4999 'a' ++ [' '])
    (fun c hc => by rw [hh] at hc; rw [← Option.some.inj hc]; rfl)]
  rw [List.reverse_append, List.reverse_replicate]
  rw [show (([' '] : List Char).reverse ++ List.replicate 4999 'a') =
      ' ' :: List.replicate 4999 'a' from rfl]
  rw [List.dropWhile_cons, if_pos (show isJsWs ' ' = true from rfl)]
  have hh2 : (List.replicate 4999 'a').head? = some 'a' := by
    rw [List.head?_replicate]
    rfl
  rw [dropWhile_head_not_ws (List.replicate 4999 'a')
    (fun c hc => by rw [hh2] at hc; rw [← Option.some.inj hc]; rfl)]
  rw [List.reverse_replicate]
  exact List.take_of_length_le (by rw [List.length_replicate]; exact Nat.le_of_lt (by decide))

/-- C8 counterexample: for the input of 4999 letters, a space and a letter
the normalization pass is not idempotent — the 5000-character cut leaves a
trailing space that the second pass trims, so the two results differ (in
length: 5000 versus 4999). -/
theorem cleanTextInj_not_idempotent :
    ¬ cleanTextInj (cleanTextInj (List.replicate 4999 'a' ++ [' ', 'b'])) =
      cleanTextInj (List.replicate 4999 'a' ++ [' ', 'b']) := by
  rw [cleanTextInj_cut_at_space, cleanTextInj_trims_trailing_space]
  intro h
  have hlen := congrArg List.length h
  rw [List.length_replicate, List.length_append, List.length_replicate] at hlen
  exact absurd hlen (by decide)

/-- Adjacent characters are never both whitespace. -/
def noTwoWs (a b : Char) : Prop := ¬ (isJsWs a = true ∧ isJsWs b = true)

/-- The output of the collapsing machine in whitespace-pending state never
starts with whitespace. -/
theorem collapseAux_true_head (l : List Char) :
    ∀ c, (collapseAux true l).head? = some c → isJsWs c = false := by
  induction l with
  | nil => intro c hc; exact absurd hc (by simp [collapseAux])
  | cons d rest ih =>
      intro c hc
      by_cases hd : isJsWs d = true
      · rw [show collapseAux true (d :: rest) = collapseAux true rest from by
          simp only [collapseAux]; rw [if_pos hd, if_pos (by simp)]] at hc
        exact ih c hc
      · rw [show collapseAux true (d :: rest) = d :: collapseAux false rest from by
          simp only [collapseAux]; rw [if_neg hd]] at hc
        simp only [List.head?_cons, Option.some.injEq] at hc
        rw [← hc]
        exact Bool.eq_false_iff.2 hd

/-- Every character of a collapsed string is either the replacement space
or a non-whitespace character of the input. -/
theorem mem_collapseAux (b : Bool) (l : List Char) :
    ∀ c ∈ collapseAux b l, c = ' ' ∨ (c ∈ l ∧ isJsWs c = false) := by
  induction l generalizing b with
  | nil => intro c hc; exact absurd hc (by cases b <;> simp [collapseAux])
  | cons d rest ih =>
      intro c hc
      by_cases hd : isJsWs d = true
      · cases b with
        | true =>
            rw [show collapseAux true (d :: rest) = collapseAux true rest from by
              simp only [collapseAux]; rw [if_pos hd, if_pos (by simp)]] at hc
            rcases ih true c hc with h | ⟨hm, hnw⟩
            · exact Or.inl h
            · exact Or.inr ⟨List.mem_cons_of_mem d hm, hnw⟩
        | false =>
            rw [show collapseAux false (d :: rest) = ' ' :: collapseAux true rest from by
              simp only [collapseAux]
              rw [if_pos hd, if_neg (by simp)]] at hc
            rcases List.mem_cons.1 hc with h | h
            · exact Or.inl h
            · rcases ih true c h with h2 | ⟨hm, hnw⟩
              · exact Or.inl h2
              · exact Or.inr ⟨List.mem_cons_of_mem d hm, hnw⟩
      · rw [show collapseAux b (d :: rest) = d :: collapseAux false rest from by
          simp only [collapseAux]; rw [if_neg hd]] at hc
        rcases List.mem_cons.1 hc with h | h
        · refine Or.inr ⟨by rw [h]; exact List.mem_cons_self d rest, ?_⟩
          rw [h]; exact Bool.eq_false_iff.2 hd
        · rcases ih false c h with h2 | ⟨hm, hnw⟩
          · exact Or.inl h2
          · exact Or.inr ⟨List.mem_cons_of_mem d hm, hnw⟩

/-- A collapsed string never has two adjacent whitespace characters. -/
theorem chain_collapseAux (b : Bool) (l : List Char) :
    List.Chain' noTwoWs (collapseAux b l) := by
  induction l generalizing b with
  | nil => cases b <;> exact List.chain'_nil
  | cons d rest ih =>
      by_cases hd : isJsWs d = true
      · cases b with
        | true =>
            rw [show collapseAux true (d :: rest) = collapseAux true rest from by
              simp only [collapseAux]; rw [if_pos hd, if_pos (by simp)]]
            exact ih true
        | false =>
            rw [show collapseAux false (d :: rest) = ' ' :: collapseAux true rest from by
              simp only [collapseAux]
              rw [if_pos hd, if_neg (by simp)]]
            refine List.chain'_cons'.2 ⟨?_, ih true⟩
            intro y hy
            intro hpair
            have := collapseAux_true_head rest y hy
            rw [this] at hpair
            exact Bool.false_ne_true hpair.2
      · rw [show collapseAux b (d :: rest) = d :: collapseAux false rest from by
          simp only [collapseAux]; rw [if_neg hd]]
        refine List.chain'_cons'.2 ⟨?_, ih false⟩
        intro y hy hpair
        exact hd hpair.1

/-- A string whose whitespace is only single isolated spaces passes the
collapsing machine unchanged. -/
theorem collapseAux_fix (l : List Char)
    (h1 : ∀ c ∈ l, isJsWs c = true → c = ' ')
    (h2 : List.Chain' noTwoWs l) :
    collapseAux false l = l := by
  induction l with
  | nil => rfl
  | cons c rest ih =>
      by_cases hc : isJsWs c = true
      · have hcsp : c = ' ' := h1 c (List.mem_cons_self c rest) hc
        have hrest : collapseAux true rest = rest := by
          cases rest with
          | nil => rfl
          | cons d rest2 =>
              have hR : noTwoWs c d := (List.chain'_cons'.1 h2).1 d rfl
              have hd : isJsWs d = false := by
                by_cases hdd : isJsWs d = true
                · exact absurd ⟨hc, hdd⟩ hR
                · exact Bool.eq_false_iff.2 hdd
              have hrec : collapseAux false (d :: rest2) = d :: rest2 :=
                ih (fun x hx hw => h1 x (List.mem_cons_of_mem c hx) hw) h2.tail
              have hstep : collapseAux false (d :: rest2) =
                  d :: collapseAux false rest2 := by
                simp only [collapseAux]
                rw [if_neg (by rw [hd]; exact Bool.false_ne_true)]
              have hstep2 : collapseAux true (d :: rest2) =
                  d :: collapseAux false rest2 := by
                simp only [collapseAux]
                rw [if_neg (by rw [hd]; exact Bool.false_ne_true)]
              rw [hstep2, ← hstep, hrec]
        rw [show collapseAux false (c :: rest) = ' ' :: collapseAux true rest from by
          simp only [collapseAux]
          rw [if_pos hc, if_neg (by simp)]]
        rw [hrest, hcsp]
      · rw [show collapseAux false (c :: rest) = c :: collapseAux false rest from by
          simp only [collapseAux]; rw [if_neg hc]]
        rw [ih (fun x hx hw => h1 x (List.mem_cons_of_mem c hx) hw) h2.tail]

/-- The carriage-return/newline/tab replacement is the identity on a
string whose whitespace is only spaces. -/
theorem mapNlcr_of_wsChars (l : List Char)
    (h : ∀ c ∈ l, isJsWs c = true → c = ' ') :
    l.map (fun c => if c = '\r' || c = '\n' || c = '\t' then ' ' else c) = l := by
  have h' : ∀ c ∈ l, (if (c = '\r' || c = '\n' || c = '\t' : Bool) then ' ' else c) = c := by
    intro c hc
    by_cases h1 : (c = '\r' || c = '\n' || c = '\t') = true
    · exfalso
      simp only [Bool.or_eq_true, decide_eq_true_eq] at h1
      have hw : isJsWs c = true := by
        rcases h1 with (h | h) | h <;> rw [h] <;> rfl
      have hsp := h c hc hw
      rcases h1 with (h | h) | h <;> rw [h] at hsp <;> exact absurd hsp (by decide)
    · exact if_neg h1
  rw [List.map_congr_left h', List.map_id']

/-- Trimming yields an infix of its input. -/
theorem trimWs_within (m : List Char) : trimWs m <:+: m := by
  unfold trimWs
  have hsuf : m.dropWhile isJsWs <:+ m := List.dropWhile_suffix _
  have hpre : (((m.dropWhile isJsWs).reverse.dropWhile isJsWs)).reverse <+:
      m.dropWhile isJsWs := by
    have h0 := List.reverse_prefix.2
      (List.dropWhile_suffix (l := (m.dropWhile isJsWs).reverse) isJsWs)
    rwa [List.reverse_reverse] at h0
  exact hpre.isInfix.trans hsuf.isInfix

/-- A trimmed string never starts with whitespace. -/
theorem trimWs_head_not_ws (m : List Char) :
    ∀ c, (trimWs m).head? = some c → isJsWs c = false := by
  intro c hc
  unfold trimWs at hc
  have hpre : (((m.dropWhile isJsWs).reverse.dropWhile isJsWs)).reverse <+:
      m.dropWhile isJsWs := by
    have h0 := List.reverse_prefix.2
      (List.dropWhile_suffix (l := (m.dropWhile isJsWs).reverse) isJsWs)
    rwa [List.reverse_reverse] at h0
  obtain ⟨t, ht⟩ := hpre
  have hd1 : (m.dropWhile isJsWs).head? = some c := by
    rw [← ht, List.head?_append, hc]
    rfl
  have hmatch := List.head?_dropWhile_not isJsWs m
  rw [hd1] at hmatch
  exact hmatch

/-- C8 (amended): the popup normalization pass is idempotent whenever its
result does not end with a space — in particular whenever the 5000
character truncation did not cut directly after a space.  The only failure
mode is the trailing space that the cut can expose, which a second pass
trims. -/
theorem cleanTextInj_idempotent_no_trailing_space (x : List Char)
    (h : ¬ (cleanTextInj x).getLast? = some ' ') :
    cleanTextInj (cleanTextInj x) = cleanTextInj x := by
  have hzw : ∀ c ∈ collapseWs x, isJsWs c = true → c = ' ' := by
    intro c hc hw
    rcases mem_collapseAux false x c hc with hsp | ⟨_, hnw⟩
    · exact hsp
    · rw [hnw] at hw; exact absurd hw Bool.false_ne_true
  have hyx : cleanTextInj x = (trimWs (collapseWs x)).take 5000 := by
    unfold cleanTextInj
    rw [mapNlcr_of_wsChars _ hzw]
  have hinf : cleanTextInj x <:+: collapseWs x := by
    rw [hyx]
    exact (List.take_prefix _ _).isInfix.trans (trimWs_within _)
  have hyw : ∀ c ∈ cleanTextInj x, isJsWs c = true → c = ' ' :=
    fun c hc => hzw c (hinf.subset hc)
  have hychain : List.Chain' noTwoWs (cleanTextInj x) :=
    List.Chain'.infix (chain_collapseAux false x) hinf
  have hyhead : ∀ c, (cleanTextInj x).head? = some c → isJsWs c = false := by
    intro c hc
    rw [hyx] at hc
    cases htz : trimWs (collapseWs x) with
    | nil => rw [htz] at hc; exact absurd hc (by simp)
    | cons a t =>
        rw [htz, show (5000 : Nat) = 4999 + 1 from rfl, List.take_succ_cons] at hc
        simp only [List.head?_cons, Option.some.injEq] at hc
        have ha : (trimWs (collapseWs x)).head? = some a := by rw [htz]; rfl
        have := trimWs_head_not_ws (collapseWs x) a ha
        rw [← hc]
        exact this
  have hylast : ∀ c, (cleanTextInj x).getLast? = some c → isJsWs c = false := by
    intro c hc
    by_cases hw : isJsWs c = true
    · have hcm : c ∈ cleanTextInj x := by
        obtain ⟨ys, hys⟩ := List.getLast?_eq_some_iff.1 hc
        rw [hys]
        exact List.mem_append_right _ (List.mem_cons_self c [])
      have hsp := hyw c hcm hw
      rw [hsp] at hc
      exact absurd hc h
    · exact Bool.eq_false_iff.2 hw
  have hlen : (cleanTextInj x).length ≤ 5000 := by
    rw [hyx, List.length_take]
    exact Nat.min_le_left _ _
  show cleanTextInj (cleanTextInj x) = cleanTextInj x
  set y := cleanTextInj x with hy
  unfold cleanTextInj collapseWs
  rw [collapseAux_fix y hyw hychain]
  rw [mapNlcr_of_wsChars y hyw]
  rw [trimWs_of_ends y hyhead hylast]
  exact List.take_of_length_le hlen

/-- C8 witness: for the short input of a letter, two spaces and a letter,
the cleaned result neither ends in a space nor is re-cleaned to anything
different. -/
theorem cleanTextInj_idempotent_witness :
    ¬ (cleanTextInj (('a' :: ' ' :: ' ' :: ['b']))).getLast? = some ' ' ∧
    cleanTextInj (cleanTextInj (('a' :: ' ' :: ' ' :: ['b']))) =
      cleanTextInj (('a' :: ' ' :: ' ' :: ['b'])) :=
  ⟨by decide, cleanTextInj_idempotent_no_trailing_space _ (by decide)⟩

end BearPeek
